import Mathlib

/-!
Verification development for the error-codes-explorer repository.

The four codecs (Reed-Solomon over GF(2^8), Hamming(7,4)/(8,4), LDPC
belief propagation, polar successive cancellation) are embedded shallowly:
the JavaScript arrays become Lean lists (reads via `getD`, writes via
`set`, both matching in-bounds JS semantics; out-of-bounds reads return
the default 0 and are commented wherever the source could reach them),
JS number arithmetic on small integers becomes `Nat`/`Int`/`ℚ`
arithmetic (exact in IEEE double for every value that occurs), and the
LDPC decoder's use of `Infinity`/`NaN` is modelled by an explicit
JS-value type.
-/

set_option maxRecDepth 100000

/-! ## GF(2^8) arithmetic (reed-solomon.ts, lines 4-46)

Primitive polynomial x^8 + x^4 + x^3 + x^2 + 1 = 0x11d.  `initGF` fills
`gfExp[0..254]` with successive doublings of 1 reduced mod the primitive
polynomial, records the inverse map in `gfLog`, then duplicates the
table over `[255,511]` (`gfExp[i] = gfExp[i-255]`), and sets
`gfLog[0] = -1`. -/

def gfStep (x : Nat) : Nat :=
  let y := x <<< 1
  if y ≥ 256 then (y ^^^ 0x11d) &&& 0xff else y

def gfExpAux : Nat → Nat → List Nat
  | 0, _ => []
  | k + 1, x => x :: gfExpAux k (gfStep x)

/-- The 255 successive values written to `gfExp[0..254]` by `initGF`. -/
def gfExpBase : List Nat := gfExpAux 255 1

/-- The full 512-entry `gfExp` table: the second loop of `initGF` copies
`gfExp[i-255]` into `gfExp[i]` sequentially for `i ∈ [255,511]`, so
indices `[255,509]` receive `gfExpBase[0..254]` and indices `510`, `511`
receive the just-copied `gfExpBase[0]`, `gfExpBase[1]`. -/
def gfExpT : List Nat := gfExpBase ++ gfExpBase ++ gfExpBase.take 2

/-- The `gfLog` table as a function.  `initGF` writes `gfLog[x_i] = i`
for the 255 pairwise-distinct values `x_i` (distinctness is checked in
`gfExpBase_nodup` below, so the order of the writes is irrelevant and
`indexOf` recovers the written value), and finally `gfLog[0] = -1`. -/
def gfLogT (v : Nat) : Int :=
  if v = 0 then -1 else gfExpBase.indexOf v

/-- reed-solomon.ts lines 29-32 (`gfMul`). -/
def gfMul (a b : Nat) : Nat :=
  if a = 0 ∨ b = 0 then 0
  else gfExpT.getD (gfLogT a + gfLogT b).toNat 0

/-- reed-solomon.ts lines 34-38 (`gfDiv`).  The source throws on a zero
divisor; every caller in the decode pipeline guards the divisor, so the
`b = 0` branch (returning 0 here) is unreachable there. -/
def gfDiv (a b : Nat) : Nat :=
  if b = 0 then 0
  else if a = 0 then 0
  else gfExpT.getD ((gfLogT a - gfLogT b + 255) % 255).toNat 0

/-- reed-solomon.ts lines 44-46 (`gfInverse`).  For `x = 0` the source
reads `gfExp[255 - (-1)] = gfExp[256]`, which this embedding reproduces
exactly (`(255 - gfLogT 0).toNat = 256`). -/
def gfInverse (x : Nat) : Nat := gfExpT.getD (255 - gfLogT x).toNat 0

theorem gfExpBase_length : gfExpBase.length = 255 := by decide

theorem gfExpBase_nodup : gfExpBase.Nodup := by decide

theorem gfExpT_length : gfExpT.length = 512 := by decide

/-- Every entry of the duplicated 512-entry table repeats the base table
with period 255. -/
theorem gfExp_periodic : ∀ k < 512, gfExpT.getD k 0 = gfExpBase.getD (k % 255) 0 := by decide

/-- All 255 base-table entries are non-zero bytes. -/
theorem gfExpBase_range : ∀ i < 255, 1 ≤ gfExpBase.getD i 0 ∧ gfExpBase.getD i 0 ≤ 255 := by decide

/-- The log table inverts the exp table on table indices. -/
theorem gfLog_exp : ∀ i < 255, gfLogT (gfExpBase.getD i 0) = (i : Int) := by decide

/-- The exp table inverts the log table on non-zero bytes. -/
theorem gfExp_log :
    ∀ v < 256, 1 ≤ v →
      gfExpBase.indexOf v < 255 ∧ gfExpBase.getD (gfExpBase.indexOf v) 0 = v := by decide

theorem gfLogT_of_ne_zero (v : Nat) (hv : v ≠ 0) : gfLogT v = (gfExpBase.indexOf v : Int) := by
  simp [gfLogT, hv]

theorem gfMul_eq (a b : Nat) (ha : a ≠ 0) (hb : b ≠ 0) (ha2 : a ≤ 255) (hb2 : b ≤ 255) :
    gfMul a b = gfExpBase.getD ((gfExpBase.indexOf a + gfExpBase.indexOf b) % 255) 0 := by
  have hna := gfExp_log a (by omega) (by omega)
  have hnb := gfExp_log b (by omega) (by omega)
  have h1 : ¬(a = 0 ∨ b = 0) := by omega
  rw [gfMul, if_neg h1, gfLogT_of_ne_zero a ha, gfLogT_of_ne_zero b hb]
  have h2 : ((gfExpBase.indexOf a : Int) + gfExpBase.indexOf b).toNat
      = gfExpBase.indexOf a + gfExpBase.indexOf b := by omega
  rw [h2]
  exact gfExp_periodic _ (by omega)

theorem gfMul_range (a b : Nat) (ha2 : a ≤ 255) (hb2 : b ≤ 255) : gfMul a b ≤ 255 := by
  by_cases h : a = 0 ∨ b = 0
  · simp [gfMul, h]
  · push_neg at h
    rw [gfMul_eq a b h.1 h.2 ha2 hb2]
    exact (gfExpBase_range _ (Nat.mod_lt _ (by omega))).2

/-- C4: GF(2^8) field identities of the table-based arithmetic: for all
bytes `a` and non-zero bytes `b`, `gfDiv (gfMul a b) b = a`, and for all
non-zero bytes `a`, `gfMul a (gfInverse a) = 1`. -/
theorem gf_field_identities :
    (∀ a b : Nat, a ≤ 255 → 1 ≤ b → b ≤ 255 → gfDiv (gfMul a b) b = a) ∧
    (∀ a : Nat, 1 ≤ a → a ≤ 255 → gfMul a (gfInverse a) = 1) := by
  constructor
  · intro a b ha2 hb1 hb2
    by_cases ha : a = 0
    · subst ha
      simp [gfMul, gfDiv, show b ≠ 0 by omega]
    · have hna := gfExp_log a (by omega) (by omega)
      have hnb := gfExp_log b (by omega) (by omega)
      set na := gfExpBase.indexOf a with hnadef
      set nb := gfExpBase.indexOf b with hnbdef
      have hm : gfMul a b = gfExpBase.getD ((na + nb) % 255) 0 :=
        gfMul_eq a b ha (by omega) ha2 hb2
      have hmr := gfExpBase_range ((na + nb) % 255) (Nat.mod_lt _ (by omega))
      have hlogm : gfLogT (gfMul a b) = (((na + nb) % 255 : Nat) : Int) := by
        rw [hm]; exact gfLog_exp _ (Nat.mod_lt _ (by omega))
      rw [gfDiv, if_neg (show ¬ b = 0 by omega), if_neg (show ¬ gfMul a b = 0 by omega),
        hlogm, gfLogT_of_ne_zero b (by omega), ← hnbdef]
      have he : ((((na + nb) % 255 : Nat) : Int) - (nb : Int) + 255) % 255 = (na : Int) := by
        have h255 : (na + nb) % 255 = (na + nb) - 255 * ((na + nb) / 255) := by omega
        omega
      rw [he]
      have h3 : ((na : Int)).toNat = na := by omega
      rw [h3, gfExp_periodic na (by omega), Nat.mod_eq_of_lt (by omega)]
      exact hna.2
  · intro a ha1 ha2
    have hna := gfExp_log a (by omega) (by omega)
    set na := gfExpBase.indexOf a with hnadef
    have hv : gfInverse a = gfExpBase.getD ((255 - na) % 255) 0 := by
      rw [gfInverse, gfLogT_of_ne_zero a (by omega), ← hnadef]
      have h2 : ((255 : Int) - (na : Int)).toNat = 255 - na := by omega
      rw [h2]
      exact gfExp_periodic _ (by omega)
    have hvr := gfExpBase_range ((255 - na) % 255) (Nat.mod_lt _ (by omega))
    have hlogv : gfExpBase.indexOf (gfInverse a) = (255 - na) % 255 := by
      have := gfLog_exp ((255 - na) % 255) (Nat.mod_lt _ (by omega))
      rw [← hv] at this
      have h4 := gfLogT_of_ne_zero (gfInverse a) (by omega)
      omega
    rw [gfMul_eq a (gfInverse a) (by omega) (by omega) ha2 (by omega), hlogv, ← hnadef]
    have h5 : (na + (255 - na) % 255) % 255 = 0 := by omega
    rw [h5]
    decide

/-- Witness for `gf_field_identities` at concrete bytes. -/
theorem gf_field_identities_witness :
    gfDiv (gfMul 7 3) 3 = 7 ∧ gfMul 90 (gfInverse 90) = 1 :=
  ⟨gf_field_identities.1 7 3 (by decide) (by decide) (by decide),
   gf_field_identities.2 90 (by decide) (by decide)⟩

/-- C9: totality and closure of the table-based GF(2^8) arithmetic: for
all bytes `a`, `b` the product is a byte and the exp-table index read by
`gfMul` is at most 508 (inside the 512-entry table); for non-zero `b`
the quotient is a byte as well. -/
theorem gf_closure :
    (∀ a b : Nat, a ≤ 255 → b ≤ 255 →
      gfMul a b ≤ 255 ∧ (a ≠ 0 → b ≠ 0 → (gfLogT a + gfLogT b).toNat ≤ 508)) ∧
    (∀ a b : Nat, a ≤ 255 → 1 ≤ b → b ≤ 255 → gfDiv a b ≤ 255) := by
  constructor
  · intro a b ha2 hb2
    refine ⟨gfMul_range a b ha2 hb2, ?_⟩
    intro ha hb
    have hna := gfExp_log a (by omega) (by omega)
    have hnb := gfExp_log b (by omega) (by omega)
    rw [gfLogT_of_ne_zero a ha, gfLogT_of_ne_zero b hb]
    omega
  · intro a b ha2 hb1 hb2
    by_cases ha : a = 0
    · simp [gfDiv, ha]
    · have hna := gfExp_log a (by omega) (by omega)
      have hnb := gfExp_log b (by omega) (by omega)
      rw [gfDiv, if_neg (show ¬ b = 0 by omega), if_neg ha,
        gfLogT_of_ne_zero a ha, gfLogT_of_ne_zero b (by omega)]
      set na := gfExpBase.indexOf a
      set nb := gfExpBase.indexOf b
      have he : ∃ k : Nat, k < 255 ∧ (((na : Int) - nb + 255) % 255).toNat = k := by
        refine ⟨(((na : Int) - nb + 255) % 255).toNat, ?_, rfl⟩
        omega
      obtain ⟨k, hk, hke⟩ := he
      rw [hke, gfExp_periodic k (by omega), Nat.mod_eq_of_lt hk]
      exact (gfExpBase_range k hk).2

/-- Witness for `gf_closure` at concrete bytes. -/
theorem gf_closure_witness :
    (gfMul 200 250 ≤ 255 ∧ (200 ≠ 0 → 250 ≠ 0 → (gfLogT 200 + gfLogT 250).toNat ≤ 508)) ∧
    gfDiv 17 250 ≤ 255 :=
  ⟨gf_closure.1 200 250 (by decide) (by decide),
   gf_closure.2 17 250 (by decide) (by decide) (by decide)⟩

/-! ## Hamming codec (hamming.ts)

Data bits are a list of four bits; the codeword layout is
`[p1, p2, d0, p4, d1, d2, d3]`, with an overall parity bit prepended in
the extended configuration (hamming.ts lines 38-50). -/

def hammingEncode (d : List Nat) (ext : Bool) : List Nat :=
  let p1 := d.getD 0 0 ^^^ d.getD 1 0 ^^^ d.getD 3 0
  let p2 := d.getD 0 0 ^^^ d.getD 2 0 ^^^ d.getD 3 0
  let p4 := d.getD 1 0 ^^^ d.getD 2 0 ^^^ d.getD 3 0
  let codeword := [p1, p2, d.getD 0 0, p4, d.getD 1 0, d.getD 2 0, d.getD 3 0]
  if ext then (codeword.foldl (fun a b => a ^^^ b) 0) :: codeword else codeword

/-- The error-injection step of hamming.ts lines 79-86: flip one bit of
the encoded word when the position is in range. -/
def hammingFlipAt (w : List Nat) (pos : Nat) : List Nat :=
  if pos < w.length then w.set pos (w.getD pos 0 ^^^ 1) else w

structure HammingSyndrome where
  s1 : Nat
  s2 : Nat
  s4 : Nat
  value : Nat
deriving DecidableEq, Repr

/-- hamming.ts lines 89-100 (`syndrome`): recompute the three parity
groups on the received word (skipping the overall parity bit in the
extended configuration) and combine them into a value in binary. -/
def hammingSyndrome (r : List Nat) (ext : Bool) : HammingSyndrome :=
  let word := if ext then r.drop 1 else r
  let s1 := word.getD 0 0 ^^^ word.getD 2 0 ^^^ word.getD 4 0 ^^^ word.getD 6 0
  let s2 := word.getD 1 0 ^^^ word.getD 2 0 ^^^ word.getD 5 0 ^^^ word.getD 6 0
  let s4 := word.getD 3 0 ^^^ word.getD 4 0 ^^^ word.getD 5 0 ^^^ word.getD 6 0
  { s1 := s1, s2 := s2, s4 := s4, value := s1 * 1 + s2 * 2 + s4 * 4 }

/-- The three distinguishable outcomes of the decode branch (the source
reports them as localized strings). -/
inductive HammingMsg
  | noError
  | correctedAt (pos : Nat)
  | outOfRange
deriving DecidableEq, Repr

structure HammingResult where
  word : List Nat
  errorAt : Int
  msg : HammingMsg
deriving DecidableEq, Repr

/-- hamming.ts lines 124-140 (`corrected`): zero syndrome means no
error; otherwise flip the indicated bit (index `value` when extended,
`value - 1` otherwise) if it is inside the word, else report the
out-of-range diagnostic. -/
def hammingCorrected (r : List Nat) (ext : Bool) : HammingResult :=
  let syn := hammingSyndrome r ext
  if syn.value = 0 then { word := r, errorAt := -1, msg := .noError }
  else
    let errorIdx : Nat := if ext then syn.value else syn.value - 1
    if errorIdx < r.length then
      { word := r.set errorIdx (r.getD errorIdx 0 ^^^ 1), errorAt := errorIdx,
        msg := .correctedAt syn.value }
    else { word := r, errorAt := -1, msg := .outOfRange }

/-- C2 counterexample: in the extended (8,4) configuration, flipping the
overall parity bit (position 0) leaves the syndrome zero, so decoding
returns the received word unchanged and does not restore the codeword. -/
theorem hamming_extended_parity_flip_uncorrected :
    (hammingCorrected (hammingFlipAt (hammingEncode [0, 0, 0, 0] true) 0) true).word ≠
      hammingEncode [0, 0, 0, 0] true := by decide

/-- C2 amended: for every 4-bit data word, a single flip at any of the 7
positions of the (7,4) codeword is corrected exactly, and in the
extended (8,4) configuration a flip at any of the positions 1..7 is
corrected exactly, while a flip at position 0 (the overall parity bit)
yields syndrome zero and the received word is returned uncorrected. -/
theorem hamming_single_error_correction :
    ∀ d0 d1 d2 d3 : Fin 2,
      (∀ p : Fin 7,
        (hammingCorrected
          (hammingFlipAt (hammingEncode [d0.val, d1.val, d2.val, d3.val] false) p.val)
          false).word = hammingEncode [d0.val, d1.val, d2.val, d3.val] false) ∧
      (∀ p : Fin 7,
        (hammingCorrected
          (hammingFlipAt (hammingEncode [d0.val, d1.val, d2.val, d3.val] true) (p.val + 1))
          true).word = hammingEncode [d0.val, d1.val, d2.val, d3.val] true) ∧
      hammingCorrected (hammingFlipAt (hammingEncode [d0.val, d1.val, d2.val, d3.val] true) 0)
          true =
        { word := hammingFlipAt (hammingEncode [d0.val, d1.val, d2.val, d3.val] true) 0,
          errorAt := -1, msg := .noError } := by decide

/-- C8 counterexample: with data bits `[1,0,1,1]` the (7,4) encoder
produces `[0,1,1,0,0,1,1]` (the first parity bit is `1 XOR 0 XOR 1 = 0`),
not the `[1,1,1,0,0,1,1]` stated in the claim. -/
theorem hamming_scenario_codeword_differs :
    hammingEncode [1, 0, 1, 1] false ≠ [1, 1, 1, 0, 0, 1, 1] := by decide

/-- C8 amended: data `[1,0,1,1]` encodes to `[0,1,1,0,0,1,1]`; flipping
the bit at 0-indexed position 4 (1-indexed position 5) and decoding
reports `errorAt = 4` and restores the original codeword. -/
theorem hamming_scenario :
    hammingEncode [1, 0, 1, 1] false = [0, 1, 1, 0, 0, 1, 1] ∧
    hammingCorrected (hammingFlipAt (hammingEncode [1, 0, 1, 1] false) 4) false =
      { word := [0, 1, 1, 0, 0, 1, 1], errorAt := 4, msg := .correctedAt 5 } := by decide

/-- C10: for every received word of the supported lengths with bits in
{0,1}, the syndrome value lies in `[0,7]`, any non-zero value maps to a
flip index strictly inside the word, and decode never reaches the
out-of-range-syndrome diagnostic. -/
theorem hamming_no_out_of_range :
    (∀ f : Fin 7 → Fin 2,
      (hammingSyndrome (List.ofFn fun i => (f i).val) false).value ≤ 7 ∧
      ((hammingSyndrome (List.ofFn fun i => (f i).val) false).value ≠ 0 →
        (hammingSyndrome (List.ofFn fun i => (f i).val) false).value - 1 < 7) ∧
      (hammingCorrected (List.ofFn fun i => (f i).val) false).msg ≠ .outOfRange) ∧
    (∀ f : Fin 8 → Fin 2,
      (hammingSyndrome (List.ofFn fun i => (f i).val) true).value ≤ 7 ∧
      ((hammingSyndrome (List.ofFn fun i => (f i).val) true).value ≠ 0 →
        (hammingSyndrome (List.ofFn fun i => (f i).val) true).value < 8) ∧
      (hammingCorrected (List.ofFn fun i => (f i).val) true).msg ≠ .outOfRange) := by decide

/-! ## Reed-Solomon codec (reed-solomon.ts, lines 48-214 and 285-355)

Polynomials are coefficient lists with the highest degree first, exactly
as in the source. -/

/-- reed-solomon.ts lines 49-57 (`polyMul`): the nested accumulation
loop, word for word (allocate `p.length + q.length - 1` zeroes, then
`result[i+j] ^= gfMul(p[i], q[j])`). -/
def polyMul (p q : List Nat) : List Nat :=
  (List.range p.length).foldl (fun result i =>
    (List.range q.length).foldl (fun result2 j =>
      result2.set (i + j) (result2.getD (i + j) 0 ^^^ gfMul (p.getD i 0) (q.getD j 0)))
      result)
    (List.replicate (p.length + q.length - 1) 0)

/-- reed-solomon.ts lines 59-65 (`polyEval`): Horner evaluation starting
from the leading coefficient.  The source reads `p[0]` unguarded; every
polynomial evaluated by the pipeline is non-empty, and for an empty list
the `headD 0` default is never reached there. -/
def polyEval (p : List Nat) (x : Nat) : Nat :=
  (p.drop 1).foldl (fun r c => gfMul r x ^^^ c) (p.headD 0)

/-- reed-solomon.ts lines 68-74 (`rsGeneratorPoly`). -/
def rsGeneratorPoly (nsym : Nat) : List Nat :=
  (List.range nsym).foldl (fun g i => polyMul g [1, gfExpT.getD i 0]) [1]

/-- One step of the polynomial long division inside `rsEncode`
(reed-solomon.ts lines 84-91): XOR the generator scaled by the leading
coefficient into `msgOut` (the inner loop runs `j = 1 .. gen.length-1`). -/
def rsEncodeStep (gen : List Nat) (msgOut : List Nat) (i : Nat) : List Nat :=
  let coef := msgOut.getD i 0
  if coef ≠ 0 then
    (List.range (gen.length - 1)).foldl (fun mo j =>
      mo.set (i + j + 1) (mo.getD (i + j + 1) 0 ^^^ gfMul (gen.getD (j + 1) 0) coef)) msgOut
  else msgOut

/-- reed-solomon.ts lines 77-98 (`rsEncode`): systematic encoding, the
message followed by the `nsym` remainder symbols. -/
def rsEncode (msg : List Nat) (nsym : Nat) : List Nat :=
  let gen := rsGeneratorPoly nsym
  let final := (List.range msg.length).foldl (rsEncodeStep gen) (msg ++ List.replicate nsym 0)
  msg ++ (List.range nsym).map (fun i => final.getD (msg.length + i) 0)

/-- The error-injection step of reed-solomon.ts lines 260-269: XOR the
whole symbol with 0xff at an in-range position. -/
def rsFlipAt (enc : List Nat) (pos : Nat) : List Nat :=
  if pos < enc.length then enc.set pos ((enc.getD pos 0 ^^^ 0xff) &&& 0xff) else enc

/-- reed-solomon.ts lines 101-107 (`rsCalcSyndromes`): a leading 0
followed by the received polynomial evaluated at alpha^i. -/
def rsCalcSyndromes (msg : List Nat) (nsym : Nat) : List Nat :=
  0 :: (List.range nsym).map (fun i => polyEval msg (gfExpT.getD i 0))

/-- reed-solomon.ts lines 110-112 (`rsCheckSyndromes`). -/
def rsCheckSyndromes (synd : List Nat) : Bool :=
  (synd.drop 1).all (fun s => s == 0)

/-- The two typed uncorrectable-decode failures thrown by the source
(`'Too many errors to correct'` in `rsFindErrorLocator`,
`'Could not find error positions'` in `rsFindErrors`). -/
inductive RSError
  | tooManyErrors
  | locatorMismatch
deriving DecidableEq, Repr

structure BMState where
  errLoc : List Nat
  oldLoc : List Nat
deriving DecidableEq, Repr

/-- One Berlekamp-Massey iteration (reed-solomon.ts lines 120-140):
compute the discrepancy `delta` over the historical syndromes, always
append a 0 to `oldLoc`, swap the roles of the two polynomials (scaled by
`delta` and its inverse) when the old one is longer, then XOR the scaled
old polynomial into the locator, aligned at the low-order end. -/
def bmUpdate (synd : List Nat) (st : BMState) (i : Nat) : BMState :=
  let K := i + 1
  let errLoc := st.errLoc
  let delta := (List.range (errLoc.length - 1)).foldl
    (fun d jj =>
      d ^^^ gfMul (errLoc.getD (errLoc.length - 1 - (jj + 1)) 0) (synd.getD (K - (jj + 1)) 0))
    (synd.getD K 0)
  let oldLoc := st.oldLoc ++ [0]
  if delta ≠ 0 then
    let pair :=
      if oldLoc.length > errLoc.length then
        (oldLoc.map (fun c => gfMul c delta), errLoc.map (fun c => gfMul c (gfInverse delta)))
      else (errLoc, oldLoc)
    let errLoc3 := (List.range pair.2.length).foldl
      (fun el j =>
        el.set (el.length - 1 - j)
          (el.getD (el.length - 1 - j) 0 ^^^ gfMul delta (pair.2.getD (pair.2.length - 1 - j) 0)))
      pair.1
    { errLoc := errLoc3, oldLoc := pair.2 }
  else { errLoc := errLoc, oldLoc := oldLoc }

/-- The locator polynomial after all `nsym` Berlekamp-Massey iterations,
before stripping leading zeroes (reed-solomon.ts lines 115-140). -/
def rsFindErrorLocatorRaw (synd : List Nat) (nsym : Nat) : List Nat :=
  ((List.range nsym).foldl (bmUpdate synd) { errLoc := [1], oldLoc := [1] }).errLoc

/-- reed-solomon.ts lines 115-153 (`rsFindErrorLocator`): strip leading
zeroes and fail with the TooManyErrors throw when `2 * errs > nsym`. -/
def rsFindErrorLocator (synd : List Nat) (nsym : Nat) : Except RSError (List Nat) :=
  let errLoc := (rsFindErrorLocatorRaw synd nsym).dropWhile (fun c => c == 0)
  if 2 * (errLoc.length - 1) > nsym then .error .tooManyErrors else .ok errLoc

/-- The Chien-search position list (reed-solomon.ts lines 156-164).  For
`i ≤ 255` the source evaluates the locator at `gfExp[255 - i]`.  For
`i > 255` (possible only when the received word outgrows the 255-symbol
field bound) the source reads `gfExp` at a negative index, so Horner's
loop multiplies by `undefined` and returns the locator's constant term,
which marks the position exactly when that constant term is zero; the
`else` branch reproduces this. -/
def rsChienSearch (errLoc : List Nat) (msgLen : Nat) : List Nat :=
  ((List.range msgLen).filter (fun i =>
    if i ≤ 255 then polyEval errLoc (gfExpT.getD (255 - i) 0) == 0
    else !errLoc.isEmpty && errLoc.getLastD 0 == 0)).map (fun i => msgLen - 1 - i)

/-- reed-solomon.ts lines 156-171 (`rsFindErrors`): fail with the
LocatorMismatch throw when the number of located positions differs from
the locator degree. -/
def rsFindErrors (errLoc : List Nat) (msgLen : Nat) : Except RSError (List Nat) :=
  let errPos := rsChienSearch errLoc msgLen
  if errPos.length ≠ errLoc.length - 1 then .error .locatorMismatch else .ok errPos

/-- reed-solomon.ts lines 174-214 (`rsFindErrorMagnitudes`, the Forney
algorithm): syndrome polynomial in descending-degree order, error
evaluator `S(x) * Lambda(x) mod x^nsym` (keeping the low-order `nsym`
coefficients of the highest-first list), and per located position the
magnitude `Omega(Xi_inv) / prod_{j != i} (1 XOR Xi_inv * Xj)`, skipping
the position when the product is zero. -/
def rsFindErrorMagnitudes (synd errLoc errPos : List Nat) (msgLen : Nat) : List Nat :=
  let nsym := synd.length - 1
  let syndPoly := (List.range nsym).map (fun k => synd.getD (nsym - k) 0)
  let omega0 := polyMul syndPoly errLoc
  let omega := if omega0.length > nsym then omega0.drop (omega0.length - nsym) else omega0
  (List.range errPos.length).foldl (fun errMag i =>
    let pos := errPos.getD i 0
    let XiInv := gfInverse (gfExpT.getD (msgLen - 1 - pos) 0)
    let omegaVal := polyEval omega XiInv
    let errLocPrime := (List.range errPos.length).foldl (fun acc j =>
      if j ≠ i then
        gfMul acc (1 ^^^ gfMul XiInv (gfExpT.getD (msgLen - 1 - errPos.getD j 0) 0))
      else acc) 1
    if errLocPrime = 0 then errMag
    else errMag.set pos (gfDiv omegaVal errLocPrime)) (List.replicate msgLen 0)

/-- The decode outcome of reed-solomon.ts lines 285-355
(`correctionResult`).  The source's localized step/message strings are
replaced by the typed `errorKind` distinguishing the two throws. -/
structure RSResult where
  success : Bool
  corrected : List Nat
  errorPositions : List Nat
  errorMagnitudes : List Nat
  errorKind : Option RSError
deriving DecidableEq, Repr

/-- reed-solomon.ts lines 285-355 (`correctionResult`): empty input,
all-zero syndromes, the try-block pipeline, and the catch branch that
returns the received word unmodified on either typed failure. -/
def correctionResult (recv : List Nat) (nsym : Nat) : RSResult :=
  let synd := rsCalcSyndromes recv nsym
  if recv.length = 0 then
    { success := false, corrected := [], errorPositions := [], errorMagnitudes := [],
      errorKind := none }
  else if rsCheckSyndromes synd then
    { success := true, corrected := recv, errorPositions := [], errorMagnitudes := [],
      errorKind := none }
  else
    match rsFindErrorLocator synd nsym with
    | .error e =>
      { success := false, corrected := recv, errorPositions := [], errorMagnitudes := [],
        errorKind := some e }
    | .ok errLoc =>
      match rsFindErrors errLoc recv.length with
      | .error e =>
        { success := false, corrected := recv, errorPositions := [], errorMagnitudes := [],
          errorKind := some e }
      | .ok errPos =>
        let errMag := rsFindErrorMagnitudes synd errLoc errPos recv.length
        { success := true,
          corrected := errPos.foldl (fun c pos => c.set pos (c.getD pos 0 ^^^ errMag.getD pos 0))
            recv,
          errorPositions := errPos, errorMagnitudes := errMag, errorKind := none }

theorem getD_replicate_zero (n i : Nat) : (List.replicate n (0 : Nat)).getD i 0 = 0 := by
  induction n generalizing i with
  | zero => simp [List.getD]
  | succ k ih =>
    cases i with
    | zero => simp [List.replicate_succ]
    | succ j => simp [List.replicate_succ, List.getD_cons_succ, ih j]

theorem foldl_fixed {α β : Type} (f : β → α → β) (a : β) (h : ∀ x, f a x = a) :
    ∀ l : List α, l.foldl f a = a := by
  intro l
  induction l with
  | nil => rfl
  | cons x xs ih => simp [List.foldl_cons, h x, ih]

theorem rsEncode_allzero : rsEncode (List.replicate 254 0) 2 = List.replicate 256 0 := by
  rw [rsEncode]
  have hmo : List.replicate 254 (0 : Nat) ++ List.replicate 2 0 = List.replicate 256 0 := by
    rw [← List.replicate_add]
  rw [hmo]
  have hstep : ∀ i, rsEncodeStep (rsGeneratorPoly 2) (List.replicate 256 0) i
      = List.replicate 256 0 := by
    intro i
    simp only [rsEncodeStep, getD_replicate_zero]
    rw [if_neg (by simp)]
  rw [foldl_fixed _ _ hstep]
  have hlen : (List.replicate 254 (0 : Nat)).length = 254 := by simp
  rw [hlen]
  have hmap : (List.range 2).map (fun i => (List.replicate 256 (0:Nat)).getD (254 + i) 0)
      = [0, 0] := by
    simp [List.range_succ, getD_replicate_zero]
  rw [hmap]
  have h2 : [0, 0] = List.replicate 2 (0:Nat) := rfl
  rw [h2, ← List.replicate_add]

theorem rsFlip_allzero :
    rsFlipAt (List.replicate 256 0) 255 = List.replicate 255 0 ++ [255] := by decide

theorem gfMul_zero_left (x : Nat) : gfMul 0 x = 0 := by simp [gfMul]

theorem horner_zeros (x : Nat) :
    ∀ k, (List.replicate k 0).foldl (fun r c => gfMul r x ^^^ c) 0 = 0 := by
  intro k
  induction k with
  | zero => rfl
  | succ m ih =>
    rw [List.replicate_succ, List.foldl_cons, gfMul_zero_left]
    exact ih

theorem polyEval_recvLit (x : Nat) : polyEval (List.replicate 255 0 ++ [255]) x = 255 := by
  rw [polyEval]
  have hd : (List.replicate 255 (0:Nat) ++ [255]).drop 1 = List.replicate 254 0 ++ [255] := rfl
  have hh : (List.replicate 255 (0:Nat) ++ [255]).headD 0 = 0 := rfl
  rw [hd, hh, List.foldl_append, horner_zeros, List.foldl_cons, gfMul_zero_left, List.foldl_nil,
    Nat.zero_xor]

theorem syndromes_recvLit : rsCalcSyndromes (List.replicate 255 0 ++ [255]) 2 = [0, 255, 255] := by
  rw [rsCalcSyndromes]
  have hr : List.range 2 = [0, 1] := rfl
  rw [hr, List.map_cons, List.map_cons, List.map_nil, polyEval_recvLit, polyEval_recvLit]

theorem chien_recvLit : rsChienSearch [1, 1] 256 = [255, 0] := by decide

theorem findErrors_recvLit : rsFindErrors [1, 1] 256 = .error .locatorMismatch := by
  rw [rsFindErrors, chien_recvLit]
  rfl

theorem locator_recvLit : rsFindErrorLocator [0, 255, 255] 2 = .ok [1, 1] := rfl

/-- Decoding breaks down once the codeword outgrows the 255-symbol field
bound: for the 254-byte all-zero message with nsym = 2, flipping the
single codeword position 255 makes Chien search see the evaluation point
alpha^0 twice, so it finds two positions for the degree-1 locator and
decode fails with LocatorMismatch instead of correcting the single
error. -/
theorem rs_overlength_roundtrip_fails :
    correctionResult (rsFlipAt (rsEncode (List.replicate 254 0) 2) 255) 2 =
      { success := false, corrected := List.replicate 255 0 ++ [255], errorPositions := [],
        errorMagnitudes := [], errorKind := some .locatorMismatch } := by
  rw [rsEncode_allzero, rsFlip_allzero]
  have hlen : (List.replicate 255 (0:Nat) ++ [255]).length = 256 := by simp
  simp only [correctionResult, syndromes_recvLit, hlen, locator_recvLit, findErrors_recvLit]
  rw [if_neg (by decide), if_neg (by decide)]

/-- C5: Reed-Solomon uncorrectable failure is typed and atomic: for any
non-empty received word with a non-zero syndrome, whenever the stripped
Berlekamp-Massey locator has degree `errs` with `2 * errs > nsym` the
decode result is a failure carrying `tooManyErrors`, and whenever the
locator passes that test but Chien search locates a number of positions
different from `errs` the decode result is a failure carrying
`locatorMismatch`; in both cases `success = false` and the returned word
is the received word unmodified. -/
theorem rs_uncorrectable_typed_atomic (recv : List Nat) (nsym : Nat)
    (hne : recv.length ≠ 0)
    (hsynd : rsCheckSyndromes (rsCalcSyndromes recv nsym) = false) :
    (2 * (((rsFindErrorLocatorRaw (rsCalcSyndromes recv nsym) nsym).dropWhile
        (fun c => c == 0)).length - 1) > nsym →
      correctionResult recv nsym =
        { success := false, corrected := recv, errorPositions := [], errorMagnitudes := [],
          errorKind := some .tooManyErrors }) ∧
    (∀ errLoc, rsFindErrorLocator (rsCalcSyndromes recv nsym) nsym = .ok errLoc →
      (rsChienSearch errLoc recv.length).length ≠ errLoc.length - 1 →
      correctionResult recv nsym =
        { success := false, corrected := recv, errorPositions := [], errorMagnitudes := [],
          errorKind := some .locatorMismatch }) := by
  constructor
  · intro h
    have hloc : rsFindErrorLocator (rsCalcSyndromes recv nsym) nsym = .error .tooManyErrors := by
      rw [rsFindErrorLocator]
      exact if_pos h
    simp only [correctionResult, if_neg hne, hsynd, Bool.false_eq_true, if_false, hloc]
  · intro errLoc hok hcount
    have hfe : rsFindErrors errLoc recv.length = .error .locatorMismatch := by
      rw [rsFindErrors]
      exact if_pos hcount
    simp only [correctionResult, if_neg hne, hsynd, Bool.false_eq_true, if_false, hok, hfe]

/-- Witness for `rs_uncorrectable_typed_atomic`: a double-error word for
nsym = 2 hits the TooManyErrors branch, and a word whose bogus locator
has no Chien roots hits the LocatorMismatch branch. -/
theorem rs_uncorrectable_typed_atomic_witness :
    correctionResult [255, 255, 0] 2 =
      { success := false, corrected := [255, 255, 0], errorPositions := [],
        errorMagnitudes := [], errorKind := some .tooManyErrors } ∧
    correctionResult [106, 225, 86] 2 =
      { success := false, corrected := [106, 225, 86], errorPositions := [],
        errorMagnitudes := [], errorKind := some .locatorMismatch } :=
  ⟨(rs_uncorrectable_typed_atomic [255, 255, 0] 2 (by decide) (by decide)).1 (by decide),
   (rs_uncorrectable_typed_atomic [106, 225, 86] 2 (by decide) (by decide)).2 [133, 1]
     (by rfl) (by decide)⟩

/-! ## LDPC codec (ldpc.ts)

The belief-propagation messages are JS numbers: the min-sum fold starts
from `Infinity`, and a later subtraction can produce `NaN`, so the
message values are modelled by an explicit JS-value type.  Finite values
are represented by rationals; every operation the decoder performs
(addition, subtraction, min, abs, comparison with 0, multiplication by
the +-1 sign and by the damping constant) follows the IEEE special-value
rules exactly, while finite arithmetic is exact rather than rounded
(the claims proved below do not depend on rounding). -/

inductive JSVal
  | num (q : ℚ)
  | inf
  | ninf
  | nan
deriving DecidableEq, Repr

def jneg : JSVal → JSVal
  | .num q => .num (-q)
  | .inf => .ninf
  | .ninf => .inf
  | .nan => .nan

def jadd : JSVal → JSVal → JSVal
  | .nan, _ => .nan
  | _, .nan => .nan
  | .inf, .ninf => .nan
  | .ninf, .inf => .nan
  | .inf, _ => .inf
  | _, .inf => .inf
  | .ninf, _ => .ninf
  | _, .ninf => .ninf
  | .num a, .num b => .num (a + b)

def jsub (a b : JSVal) : JSVal := jadd a (jneg b)

def jmul : JSVal → JSVal → JSVal
  | .nan, _ => .nan
  | _, .nan => .nan
  | .num a, .num b => .num (a * b)
  | .inf, .num b => if 0 < b then .inf else if b < 0 then .ninf else .nan
  | .num a, .inf => if 0 < a then .inf else if a < 0 then .ninf else .nan
  | .ninf, .num b => if 0 < b then .ninf else if b < 0 then .inf else .nan
  | .num a, .ninf => if 0 < a then .ninf else if a < 0 then .inf else .nan
  | .inf, .inf => .inf
  | .inf, .ninf => .ninf
  | .ninf, .inf => .ninf
  | .ninf, .ninf => .inf

/-- JS `x >= 0` (false for NaN). -/
def jge0 : JSVal → Bool
  | .num q => decide (0 ≤ q)
  | .inf => true
  | .ninf => false
  | .nan => false

/-- JS `x < 0` (false for NaN). -/
def jlt0 : JSVal → Bool
  | .num q => decide (q < 0)
  | .inf => false
  | .ninf => true
  | .nan => false

/-- `Math.abs`. -/
def jabs : JSVal → JSVal
  | .num q => .num |q|
  | .inf => .inf
  | .ninf => .inf
  | .nan => .nan

/-- `Math.min` (NaN-propagating). -/
def jmin : JSVal → JSVal → JSVal
  | .nan, _ => .nan
  | _, .nan => .nan
  | .ninf, _ => .ninf
  | _, .ninf => .ninf
  | .inf, b => b
  | a, .inf => a
  | .num a, .num b => .num (min a b)

/-- The default parity-check matrix of ldpc.ts lines 7-12. -/
def ldpcDefaultH : List (List Nat) :=
  [[0, 1, 1, 1, 0, 1, 0, 1],
   [0, 1, 1, 0, 1, 0, 1, 1],
   [1, 0, 0, 1, 0, 1, 1, 1],
   [1, 0, 1, 1, 1, 0, 1, 0]]

def hEntry (h : List (List Nat)) (i j : Nat) : Nat := (h.getD i []).getD j 0

/-- ldpc.ts lines 190-206: one check-to-variable message of the min-sum
approximation — sign product and minimum absolute value over the other
incoming messages of the row (the fold starts from `Infinity`), scaled
by the damping factor 0.9. -/
def ldpcCheckToVar (h : List (List Nat)) (n : Nat) (vtc : Nat → Nat → JSVal) (i j : Nat) :
    JSVal :=
  if hEntry h i j = 0 then .num 0
  else
    let sm := (List.range n).foldl (fun (p : ℚ × JSVal) jj =>
      if jj = j ∨ hEntry h i jj = 0 then p
      else (p.1 * (if jge0 (vtc i jj) then 1 else -1), jmin p.2 (jabs (vtc i jj))))
      (1, .inf)
    jmul (jmul (.num sm.1) sm.2) (.num (9 / 10))

/-- ldpc.ts lines 212-218: total belief of a variable node. -/
def ldpcBeliefs (h : List (List Nat)) (m : Nat) (channelLlr : List JSVal)
    (cv : Nat → Nat → JSVal) (j : Nat) : JSVal :=
  (List.range m).foldl (fun acc i => if hEntry h i j = 1 then jadd acc (cv i j) else acc)
    (channelLlr.getD j (.num 0))

/-- ldpc.ts lines 231-239: XOR of the hard-decision bits over each
check row. -/
def ldpcSyndromeOk (h : List (List Nat)) (m n : Nat) (decoded : List Nat) : Bool :=
  (List.range m).all (fun i =>
    ((List.range n).foldl (fun s j => if hEntry h i j = 1 then s ^^^ decoded.getD j 0 else s) 0)
      == 0)

structure BPIterationR where
  iteration : Nat
  checkToVar : List (List JSVal)
  varToCheck : List (List JSVal)
  beliefs : List JSVal
  decoded : List Nat
  syndromeOk : Bool
deriving DecidableEq, Repr

def matN (m n : Nat) (f : Nat → Nat → JSVal) : List (List JSVal) :=
  (List.range m).map (fun i => (List.range n).map (f i))

/-- One iteration of the ldpc.ts lines 188-253 loop: computes the
check-to-variable messages, beliefs, new variable-to-check messages,
hard decision and syndrome flag, and returns the pushed trace record
together with the message state for the next iteration. -/
def bpStep (h : List (List Nat)) (m n : Nat) (channelLlr : List JSVal)
    (vtc : Nat → Nat → JSVal) (iterIdx : Nat) : BPIterationR × (Nat → Nat → JSVal) :=
  let cv := ldpcCheckToVar h n vtc
  let beliefs := ldpcBeliefs h m channelLlr cv
  let decoded := (List.range n).map (fun j => if jlt0 (beliefs j) then 1 else 0)
  let newVtc := fun i j => if hEntry h i j = 0 then JSVal.num 0 else jsub (beliefs j) (cv i j)
  ({ iteration := iterIdx + 1, checkToVar := matN m n cv, varToCheck := matN m n newVtc,
     beliefs := (List.range n).map beliefs, decoded := decoded,
     syndromeOk := ldpcSyndromeOk h m n decoded }, newVtc)

/-- The ldpc.ts lines 188-253 iteration loop: push the record of every
iteration and break as soon as the syndrome check passes. -/
def bpLoop (h : List (List Nat)) (m n : Nat) (channelLlr : List JSVal) :
    Nat → (Nat → Nat → JSVal) → Nat → List BPIterationR
  | 0, _, _ => []
  | fuel + 1, vtc, iterIdx =>
    let s := bpStep h m n channelLlr vtc iterIdx
    s.1 :: (if s.1.syndromeOk then [] else bpLoop h m n channelLlr fuel s.2 (iterIdx + 1))

/-- ldpc.ts lines 171-256 (`bpIterations`): variable-to-check messages
start as the channel LLRs on the edges, then the loop runs up to
`maxIter` iterations. -/
def bpIterations (h : List (List Nat)) (channelLlr : List JSVal) (maxIter : Nat) :
    List BPIterationR :=
  bpLoop h h.length (h.headD []).length channelLlr maxIter
    (fun i j => if hEntry h i j = 1 then channelLlr.getD j (.num 0) else .num 0) 0

structure LdpcFinal where
  decoded : List Nat
  converged : Bool
  iterations : Nat
  maxIter : Nat
deriving DecidableEq, Repr

/-- ldpc.ts lines 259-264 (`finalResult`). -/
def ldpcFinalResult (h : List (List Nat)) (received : List Nat) (channelLlr : List JSVal)
    (maxIter : Nat) : LdpcFinal :=
  match (bpIterations h channelLlr maxIter).getLast? with
  | none => { decoded := received, converged := false, iterations := 0, maxIter := maxIter }
  | some last =>
    { decoded := last.decoded, converged := last.syndromeOk,
      iterations := (bpIterations h channelLlr maxIter).length, maxIter := maxIter }

/-- ldpc.ts lines 101-107 (`channelLLR`): `llr0` stands for the value
`Math.log((1 - p) / p)` computed from the flip probability `p`; a
received 1 gets the negated value. -/
def channelLLRList (received : List Nat) (llr0 : JSVal) : List JSVal :=
  received.map (fun bit => if bit = 0 then llr0 else jneg llr0)

theorem bpLoop_cons (h : List (List Nat)) (m n : Nat) (llr : List JSVal) (fuel : Nat)
    (vtc : Nat → Nat → JSVal) (k : Nat) :
    bpLoop h m n llr (fuel + 1) vtc k =
      (bpStep h m n llr vtc k).1 ::
        (if (bpStep h m n llr vtc k).1.syndromeOk then []
         else bpLoop h m n llr fuel (bpStep h m n llr vtc k).2 (k + 1)) := rfl

theorem bpLoop_length_le (h : List (List Nat)) (m n : Nat) (llr : List JSVal) :
    ∀ fuel vtc k, (bpLoop h m n llr fuel vtc k).length ≤ fuel := by
  intro fuel
  induction fuel with
  | zero => intro vtc k; simp [bpLoop]
  | succ f ih =>
    intro vtc k
    rw [bpLoop_cons]
    by_cases hok : (bpStep h m n llr vtc k).1.syndromeOk = true
    · simp [hok]
    · simp only [if_neg hok, List.length_cons]
      exact Nat.succ_le_succ (ih _ _)

theorem bpLoop_ne_nil (h : List (List Nat)) (m n : Nat) (llr : List JSVal)
    (fuel : Nat) (vtc : Nat → Nat → JSVal) (k : Nat) (hf : 1 ≤ fuel) :
    bpLoop h m n llr fuel vtc k ≠ [] := by
  cases fuel with
  | zero => omega
  | succ f => rw [bpLoop_cons]; simp

theorem bpLoop_prefix_not_ok (h : List (List Nat)) (m n : Nat) (llr : List JSVal) :
    ∀ fuel vtc k i it, (bpLoop h m n llr fuel vtc k)[i]? = some it →
      i + 1 < (bpLoop h m n llr fuel vtc k).length → it.syndromeOk = false := by
  intro fuel
  induction fuel with
  | zero =>
    intro vtc k i it hg hi
    simp [bpLoop] at hg
  | succ f ih =>
    intro vtc k i it hg hi
    rw [bpLoop_cons] at hg hi
    by_cases hok : (bpStep h m n llr vtc k).1.syndromeOk = true
    · rw [if_pos hok] at hi
      rw [List.length_cons, List.length_nil] at hi
      omega
    · simp only [Bool.not_eq_true] at hok
      rw [if_neg (by simp [hok])] at hg hi
      cases i with
      | zero =>
        rw [List.getElem?_cons_zero] at hg
        cases hg
        exact hok
      | succ i2 =>
        rw [List.getElem?_cons_succ] at hg
        rw [List.length_cons] at hi
        exact ih _ _ i2 it hg (by omega)

theorem bpLoop_last_not_ok (h : List (List Nat)) (m n : Nat) (llr : List JSVal) :
    ∀ fuel vtc k last, (bpLoop h m n llr fuel vtc k).getLast? = some last →
      last.syndromeOk = false → (bpLoop h m n llr fuel vtc k).length = fuel := by
  intro fuel
  induction fuel with
  | zero => intro vtc k last hg hl; simp [bpLoop] at hg
  | succ f ih =>
    intro vtc k last hg hl
    rw [bpLoop_cons] at hg ⊢
    by_cases hok : (bpStep h m n llr vtc k).1.syndromeOk = true
    · rw [if_pos hok] at hg
      simp at hg
      rw [← hg, hok] at hl
      cases hl
    · rw [if_neg hok] at hg ⊢
      rcases hrest : bpLoop h m n llr f (bpStep h m n llr vtc k).2 (k + 1) with _ | ⟨a, t⟩
      · have hf0 : f = 0 := by
          by_contra hne
          exact bpLoop_ne_nil h m n llr f _ (k + 1) (by omega) hrest
        simp [hf0]
      · rw [hrest] at hg
        rw [List.getLast?_cons_cons] at hg
        have hlen : (bpLoop h m n llr f (bpStep h m n llr vtc k).2 (k + 1)).length = f :=
          ih _ (k + 1) last (by rw [hrest]; exact hg) hl
        rw [hrest] at hlen
        rw [List.length_cons, hlen]

/-- C6: LDPC iteration cap and early stop: for every parity-check
matrix, received word and channel LLR value (standing for any flip
probability) and every `maxIter >= 1`, the decoder produces at least one
and at most `maxIter` iteration records, every record before the last
has a failing syndrome check (so the loop stops at the first passing
iteration), a failing final syndrome means the cap was exhausted, and
the final result always carries the last iteration's hard decision with
`converged` equal to its syndrome flag - never a failure. -/
theorem ldpc_iteration_cap_and_early_stop (h : List (List Nat)) (received : List Nat)
    (llr0 : JSVal) (maxIter : Nat) (hmi : 1 ≤ maxIter) :
    bpIterations h (channelLLRList received llr0) maxIter ≠ [] ∧
    (bpIterations h (channelLLRList received llr0) maxIter).length ≤ maxIter ∧
    (∀ i it, (bpIterations h (channelLLRList received llr0) maxIter)[i]? = some it →
      i + 1 < (bpIterations h (channelLLRList received llr0) maxIter).length →
      it.syndromeOk = false) ∧
    (∀ last, (bpIterations h (channelLLRList received llr0) maxIter).getLast? = some last →
      (last.syndromeOk = false →
        (bpIterations h (channelLLRList received llr0) maxIter).length = maxIter) ∧
      ldpcFinalResult h received (channelLLRList received llr0) maxIter =
        { decoded := last.decoded, converged := last.syndromeOk,
          iterations := (bpIterations h (channelLLRList received llr0) maxIter).length,
          maxIter := maxIter }) := by
  refine ⟨bpLoop_ne_nil _ _ _ _ maxIter _ 0 hmi, bpLoop_length_le _ _ _ _ maxIter _ 0,
    fun i it hg hi => bpLoop_prefix_not_ok _ _ _ _ maxIter _ 0 i it hg hi, ?_⟩
  intro last hlast
  refine ⟨fun hl => bpLoop_last_not_ok _ _ _ _ maxIter _ 0 last hlast hl, ?_⟩
  simp only [ldpcFinalResult, hlast]

/-- Witness for `ldpc_iteration_cap_and_early_stop` on the default
parity-check matrix. -/
theorem ldpc_iteration_cap_witness :
    bpIterations ldpcDefaultH (channelLLRList (List.replicate 8 0) (JSVal.num 1)) 1 ≠ [] ∧
    (bpIterations ldpcDefaultH (channelLLRList (List.replicate 8 0) (JSVal.num 1)) 1).length
      ≤ 1 :=
  ⟨(ldpc_iteration_cap_and_early_stop ldpcDefaultH (List.replicate 8 0) (JSVal.num 1) 1
      (by decide)).1,
   (ldpc_iteration_cap_and_early_stop ldpcDefaultH (List.replicate 8 0) (JSVal.num 1) 1
      (by decide)).2.1⟩

/-- The non-negative (and hence non-NaN) message values: `Infinity` or a
non-negative rational. -/
def JNonneg (v : JSVal) : Prop := v = .inf ∨ ∃ x : ℚ, v = .num x ∧ 0 ≤ x

theorem jlt0_of_JNonneg {v : JSVal} (hv : JNonneg v) : jlt0 v = false := by
  rcases hv with hv | ⟨x, hv, hx⟩ <;> subst hv
  · rfl
  · simp [jlt0]
    exact hx

theorem jadd_JNonneg {a b : JSVal} (ha : JNonneg a) (hb : JNonneg b) : JNonneg (jadd a b) := by
  rcases ha with ha | ⟨x, ha, hx⟩ <;> rcases hb with hb | ⟨y, hb, hy⟩ <;> subst ha <;> subst hb
  · exact Or.inl rfl
  · exact Or.inl rfl
  · exact Or.inl rfl
  · exact Or.inr ⟨x + y, rfl, add_nonneg hx hy⟩

theorem foldl_inv {α β : Type} (P : β → Prop) (f : β → α → β) :
    ∀ (l : List α) (b : β), P b → (∀ x ∈ l, ∀ acc, P acc → P (f acc x)) → P (l.foldl f b) := by
  intro l
  induction l with
  | nil => intro b hb _; exact hb
  | cons a t ih =>
    intro b hb hf
    rw [List.foldl_cons]
    exact ih (f b a) (hf a (by simp) b hb) (fun x hx acc hacc => hf x (by simp [hx]) acc hacc)

theorem getD_replicate {α : Type} (a d : α) :
    ∀ n j, (List.replicate n a).getD j d = if j < n then a else d := by
  intro n
  induction n with
  | zero => intro j; simp [List.getD]
  | succ k ih =>
    intro j
    cases j with
    | zero => simp [List.replicate_succ]
    | succ j2 =>
      rw [List.replicate_succ, List.getD_cons_succ, ih j2]
      simp [Nat.succ_lt_succ_iff]

theorem hEntry_le_one {h : List (List Nat)} (hbin : ∀ row ∈ h, ∀ x ∈ row, x ≤ 1) (i j : Nat) :
    hEntry h i j ≤ 1 := by
  rw [hEntry]
  by_cases hi : i < h.length
  · by_cases hj : j < (h.getD i []).length
    · have h1 : h.getD i [] ∈ h := by
        rw [List.getD_eq_getElem h [] hi]
        exact List.getElem_mem _
      have h2 : (h.getD i []).getD j 0 ∈ h.getD i [] := by
        rw [List.getD_eq_getElem _ 0 hj]
        exact List.getElem_mem _
      exact hbin _ h1 _ h2
    · rw [List.getD_eq_default _ 0 (by omega)]
      omega
  · rw [List.getD_eq_default h [] (by omega)]
    simp [List.getD]

theorem channelLLR_allzero (n : Nat) (v : JSVal) :
    channelLLRList (List.replicate n 0) v = List.replicate n v := by
  rw [channelLLRList, List.map_replicate]
  simp

theorem ldpcCheckToVar_JNonneg (h : List (List Nat)) (n : Nat) (vtc : Nat → Nat → JSVal)
    (q : ℚ) (hq : 0 < q) (hbin : ∀ row ∈ h, ∀ x ∈ row, x ≤ 1)
    (hvtc : ∀ i2 jj, jj < n → hEntry h i2 jj = 1 → vtc i2 jj = .num q)
    (i j : Nat) : JNonneg (ldpcCheckToVar h n vtc i j) := by
  simp only [ldpcCheckToVar]
  by_cases h0 : hEntry h i j = 0
  · rw [if_pos h0]
    exact Or.inr ⟨0, rfl, le_refl 0⟩
  · rw [if_neg h0]
    have hfold := foldl_inv
      (fun p : ℚ × JSVal => p.1 = 1 ∧ (p.2 = JSVal.inf ∨ p.2 = JSVal.num q))
      (fun p jj =>
        if jj = j ∨ hEntry h i jj = 0 then p
        else (p.1 * (if jge0 (vtc i jj) then 1 else -1), jmin p.2 (jabs (vtc i jj))))
      (List.range n) (1, JSVal.inf) ⟨rfl, Or.inl rfl⟩ ?_
    · rcases hfold with ⟨hs1, hs2⟩
      rcases hs2 with h2 | h2 <;> rw [hs1, h2]
      · have e1 : jmul (JSVal.num 1) JSVal.inf = JSVal.inf := by norm_num [jmul]
        have e2 : jmul JSVal.inf (JSVal.num (9 / 10)) = JSVal.inf := by norm_num [jmul]
        rw [e1, e2]
        exact Or.inl rfl
      · exact Or.inr ⟨1 * q * (9 / 10), rfl, by positivity⟩
    · intro jj hjj p hp
      dsimp only
      by_cases hc : jj = j ∨ hEntry h i jj = 0
      · rw [if_pos hc]
        exact hp
      · rw [if_neg hc]
        push_neg at hc
        have h1 : hEntry h i jj = 1 := by
          have := hEntry_le_one hbin i jj
          omega
        rw [hvtc i jj (List.mem_range.mp hjj) h1]
        refine ⟨?_, ?_⟩
        · have hge : jge0 (JSVal.num q) = true := by
            simp [jge0]
            exact hq.le
          rw [hge, if_pos rfl, hp.1, mul_one]
        · rcases hp.2 with h2 | h2 <;> rw [h2] <;>
            simp [jmin, jabs, abs_of_pos hq]

theorem ldpcBeliefs_JNonneg (h : List (List Nat)) (m : Nat) (llr : List JSVal)
    (cv : Nat → Nat → JSVal) (j : Nat) (hinit : JNonneg (llr.getD j (.num 0)))
    (hcv : ∀ i, hEntry h i j = 1 → JNonneg (cv i j)) :
    JNonneg (ldpcBeliefs h m llr cv j) := by
  rw [ldpcBeliefs]
  refine foldl_inv JNonneg _ (List.range m) _ hinit ?_
  intro i hi acc hacc
  by_cases hc : hEntry h i j = 1
  · rw [if_pos hc]
    exact jadd_JNonneg hacc (hcv i hc)
  · rw [if_neg hc]
    exact hacc

theorem ldpcSyndromeOk_allzero (h : List (List Nat)) (m n : Nat) :
    ldpcSyndromeOk h m n (List.replicate n 0) = true := by
  rw [ldpcSyndromeOk, List.all_eq_true]
  intro i hi
  have hfold : (List.range n).foldl
      (fun s j => if hEntry h i j = 1 then s ^^^ (List.replicate n 0).getD j 0 else s) 0 = 0 := by
    refine foldl_inv (fun s => s = 0) _ (List.range n) 0 rfl ?_
    intro j hj s hs
    by_cases hc : hEntry h i j = 1
    · rw [if_pos hc, hs, getD_replicate_zero]
      rfl
    · rw [if_neg hc]
      exact hs
  rw [hfold]
  rfl

theorem decoded_allzero (n : Nat) (beliefs : Nat → JSVal) (hb : ∀ j < n, JNonneg (beliefs j)) :
    (List.range n).map (fun j => if jlt0 (beliefs j) then 1 else 0) = List.replicate n 0 := by
  apply List.eq_replicate_iff.mpr
  constructor
  · simp
  · intro b hbmem
    rw [List.mem_map] at hbmem
    obtain ⟨j, hj, hjb⟩ := hbmem
    rw [← hjb, jlt0_of_JNonneg (hb j (List.mem_range.mp hj))]
    rfl

theorem bpStep_allzero (h : List (List Nat)) (m n : Nat) (q : ℚ) (hq : 0 < q)
    (hbin : ∀ row ∈ h, ∀ x ∈ row, x ≤ 1) (k : Nat) :
    (bpStep h m n (List.replicate n (JSVal.num q))
        (fun i j => if hEntry h i j = 1 then (List.replicate n (JSVal.num q)).getD j (.num 0)
          else .num 0) k).1.decoded = List.replicate n 0 ∧
    (bpStep h m n (List.replicate n (JSVal.num q))
        (fun i j => if hEntry h i j = 1 then (List.replicate n (JSVal.num q)).getD j (.num 0)
          else .num 0) k).1.syndromeOk = true := by
  have hvtc : ∀ i2 jj, jj < n → hEntry h i2 jj = 1 →
      (if hEntry h i2 jj = 1 then (List.replicate n (JSVal.num q)).getD jj (JSVal.num 0)
        else JSVal.num 0) = JSVal.num q := by
    intro i2 jj hjj h1
    rw [if_pos h1, getD_replicate, if_pos hjj]
  have hcv : ∀ i j, hEntry h i j = 1 →
      JNonneg (ldpcCheckToVar h n
        (fun i j => if hEntry h i j = 1 then (List.replicate n (JSVal.num q)).getD j (.num 0)
          else .num 0) i j) :=
    fun i j _ => ldpcCheckToVar_JNonneg h n _ q hq hbin hvtc i j
  have hbel : ∀ j < n, JNonneg (ldpcBeliefs h m (List.replicate n (JSVal.num q))
      (ldpcCheckToVar h n
        (fun i j => if hEntry h i j = 1 then (List.replicate n (JSVal.num q)).getD j (.num 0)
          else .num 0)) j) := by
    intro j hj
    refine ldpcBeliefs_JNonneg h m _ _ j ?_ (fun i hi => hcv i j hi)
    rw [getD_replicate, if_pos hj]
    exact Or.inr ⟨q, rfl, hq.le⟩
  have hdec : (List.range n).map (fun j =>
      if jlt0 (ldpcBeliefs h m (List.replicate n (JSVal.num q))
        (ldpcCheckToVar h n
          (fun i j => if hEntry h i j = 1 then (List.replicate n (JSVal.num q)).getD j (.num 0)
            else .num 0)) j) then 1 else 0) = List.replicate n 0 :=
    decoded_allzero n _ hbel
  constructor
  · exact hdec
  · show ldpcSyndromeOk h m n _ = true
    rw [hdec]
    exact ldpcSyndromeOk_allzero h m n

/-- C7: LDPC all-zero fixed point: for every binary parity-check matrix,
every positive channel LLR value `q` (the value `ln((1-p)/p)` is
positive exactly when `0 < p < 1/2`) and every `maxIter >= 1`, decoding
the all-zero received word converges on the first iteration to the
all-zero hard decision, and the final result reports it with
`converged = true`. -/
theorem ldpc_allzero_fixed_point (h : List (List Nat))
    (hbin : ∀ row ∈ h, ∀ x ∈ row, x ≤ 1) (q : ℚ) (hq : 0 < q)
    (maxIter : Nat) (hmi : 1 ≤ maxIter) :
    (bpIterations h (channelLLRList (List.replicate (h.headD []).length 0) (.num q))
        maxIter).length = 1 ∧
    ldpcFinalResult h (List.replicate (h.headD []).length 0)
        (channelLLRList (List.replicate (h.headD []).length 0) (.num q)) maxIter =
      { decoded := List.replicate (h.headD []).length 0, converged := true, iterations := 1,
        maxIter := maxIter } := by
  obtain ⟨f, rfl⟩ : ∃ f, maxIter = f + 1 := ⟨maxIter - 1, by omega⟩
  rw [channelLLR_allzero]
  have hstep := bpStep_allzero h h.length (h.headD []).length q hq hbin 0
  have hlist : bpIterations h (List.replicate (h.headD []).length (JSVal.num q)) (f + 1) =
      [(bpStep h h.length (h.headD []).length
          (List.replicate (h.headD []).length (JSVal.num q))
          (fun i j => if hEntry h i j = 1 then
            (List.replicate (h.headD []).length (JSVal.num q)).getD j (.num 0)
          else .num 0) 0).1] := by
    rw [bpIterations, bpLoop_cons, if_pos hstep.2]
  refine ⟨by rw [hlist]; rfl, ?_⟩
  simp only [ldpcFinalResult, hlist, List.getLast?_singleton, hstep.1, hstep.2,
    List.length_singleton]

/-- Witness for `ldpc_allzero_fixed_point` on the default parity-check
matrix with channel LLR 1 and the source's default iteration cap 50. -/
theorem ldpc_allzero_fixed_point_witness :
    ldpcFinalResult ldpcDefaultH (List.replicate 8 0)
        (channelLLRList (List.replicate 8 0) (JSVal.num 1)) 50 =
      { decoded := List.replicate 8 0, converged := true, iterations := 1, maxIter := 50 } :=
  (ldpc_allzero_fixed_point ldpcDefaultH (by decide) 1 (by norm_num) 50 (by decide)).2

/-! ## Polar codec (polar.ts)

Matrices are embedded as entry functions (the source's `number[][]`
read only at in-range indices); the LLR values produced by the SC
decoder from the +-2.0 channel reliabilities stay small integers, on
which IEEE doubles are exact, so they are modelled as `Int`. -/

/-- The polar kernel F = [[1,0],[1,1]] of polar.ts line 21. -/
def Fm : Nat → Nat → Nat
  | 0, 0 => 1
  | 0, _ => 0
  | 1, 0 => 1
  | 1, 1 => 1
  | _, _ => 0

/-- polar.ts lines 7-18 (`kronecker`) as an entry function: block `i/bm,
j/bn` of the left factor times entry `i%bm, j%bn` of the right factor. -/
def kronEntry (a b : Nat → Nat → Nat) (bm bn : Nat) (i j : Nat) : Nat :=
  a (i / bm) (j / bn) * b (i % bm) (j % bn)

/-- The iterated Kronecker product of polar.ts lines 20-27: `gIter k` is
the entry function of the (2^(k+1))-dimensional matrix F^(k+1). -/
def gIter : Nat → Nat → Nat → Nat
  | 0 => Fm
  | k + 1 => kronEntry (gIter k) Fm 2 2

/-- polar.ts lines 20-28 (`generateG`): the loop runs `n - 1` times
starting from F (so `generateG 0` and `generateG 1` are both F), and
entries are reduced mod 2 at the end. -/
def generateG (n i j : Nat) : Nat := gIter (n - 1) i j % 2

/-- polar.ts lines 190-203 (`encoded`): `x_j = (sum_i u_i * G[i][j]) % 2`
with `N = 2^n` and `G = generateG n`. -/
def polarEncode (u : List Nat) (N n : Nat) : List Nat :=
  (List.range N).map (fun j =>
    ((Finset.range N).sum (fun i => u.getD i 0 * generateG n i j)) % 2)

/-- polar.ts lines 57-60: the min-sum f-function. -/
def scF (a b : Int) : Int :=
  ((if 0 ≤ a then 1 else -1) * (if 0 ≤ b then 1 else -1)) * min |a| |b|

/-- polar.ts lines 62-64: the g-function using the decoded partial sum. -/
def scG (a b : Int) (u : Nat) : Int := b + (1 - 2 * (u : Int)) * a

/-- polar.ts lines 66-96: the recursive SC decoder on a block of size
`2^n` starting at `offset`.  The source writes the decoded bits into a
shared array; here the pair of (decoded bits of the block in offset
order, encoded partial sums returned to the parent) is built up. -/
def scDecodeAux (frozen : Nat → Bool) : Nat → List Int → Nat → List Nat × List Nat
  | 0, llr, offset =>
    let b : Nat := if frozen offset then 0 else if llr.headD 0 < 0 then 1 else 0
    ([b], [b])
  | n + 1, llr, offset =>
    let half := 2 ^ n
    let fL := (List.range half).map (fun i => scF (llr.getD i 0) (llr.getD (half + i) 0))
    let upper := scDecodeAux frozen n fL offset
    let gL := (List.range half).map
      (fun i => scG (llr.getD i 0) (llr.getD (half + i) 0) (upper.2.getD i 0))
    let lower := scDecodeAux frozen n gL (offset + half)
    (upper.1 ++ lower.1,
     (List.range half).map (fun i => upper.2.getD i 0 ^^^ lower.2.getD i 0) ++ lower.2)

/-- polar.ts lines 53-101 (`scDecode`) for `N = 2^n`: channel LLRs are
`+-2.0` per received bit, then the recursion covers the whole block. -/
def scDecode (received : List Nat) (frozen : Nat → Bool) (n : Nat) : List Nat :=
  (scDecodeAux frozen n (received.map (fun bit => if bit = 0 then (2 : Int) else -2)) 0).1

/-- polar.ts lines 164-166 (`infoBitIndices`): the non-frozen channel
indices in ascending order. -/
def infoIndices (frozen : Nat → Bool) (N : Nat) : List Nat :=
  (List.range N).filter (fun i => !frozen i)

/-- polar.ts lines 179-187 (`inputVector`): an all-zero length-N vector
with `data[k]` placed at the k-th information index. -/
def inputVector (data : List Nat) (frozen : Nat → Bool) (N : Nat) : List Nat :=
  (List.range N).map (fun i =>
    if frozen i then 0 else data.getD ((infoIndices frozen N).indexOf i) 0)

/-- The butterfly form of the polar transform: this is the encoding map
implicitly recomputed by the decoder's combine step; the theorem
`polarEncode_eq_butterfly` below identifies it with the source's
matrix-product encoder. -/
def polarButterfly : Nat → List Nat → List Nat
  | 0, u => [u.headD 0]
  | n + 1, u =>
    (List.zipWith (fun a b => a ^^^ b) (polarButterfly n (u.take (2 ^ n)))
      (polarButterfly n (u.drop (2 ^ n)))) ++ polarButterfly n (u.drop (2 ^ n))

theorem headD_eq_getD {α : Type} (l : List α) (d : α) : l.headD d = l.getD 0 d := by
  cases l <;> rfl

theorem getD_map_range {α : Type} (f : Nat → α) (n i : Nat) (d : α) (hi : i < n) :
    ((List.range n).map f).getD i d = f i := by
  rw [List.getD_eq_getElem _ d (by simpa using hi)]
  simp

theorem getD_take_lt {α : Type} (u : List α) (h i : Nat) (d : α) (hi : i < h) :
    (u.take h).getD i d = u.getD i d := by
  rw [List.getD_eq_getElem?_getD, List.getD_eq_getElem?_getD, List.getElem?_take]
  rw [if_pos hi]

theorem getD_drop {α : Type} (u : List α) (h i : Nat) (d : α) :
    (u.drop h).getD i d = u.getD (h + i) d := by
  rw [List.getD_eq_getElem?_getD, List.getD_eq_getElem?_getD, List.getElem?_drop]

theorem polarButterfly_length (n : Nat) (u : List Nat) :
    (polarButterfly n u).length = 2 ^ n := by
  induction n generalizing u with
  | zero => rfl
  | succ k ih =>
    rw [polarButterfly]
    rw [List.length_append, List.length_zipWith, ih, ih, min_self, pow_succ]
    omega

theorem xor_le_one {a b : Nat} (ha : a ≤ 1) (hb : b ≤ 1) : a ^^^ b ≤ 1 := by
  interval_cases a <;> interval_cases b <;> decide

theorem polarButterfly_bits (n : Nat) (u : List Nat) (hu : ∀ x ∈ u, x ≤ 1) :
    ∀ x ∈ polarButterfly n u, x ≤ 1 := by
  induction n generalizing u with
  | zero =>
    intro x hx
    rw [polarButterfly] at hx
    simp only [List.mem_singleton] at hx
    subst hx
    cases u with
    | nil => simp
    | cons a t => simpa using hu a (by simp)
  | succ k ih =>
    intro x hx
    rw [polarButterfly, List.mem_append] at hx
    have htake : ∀ y ∈ u.take (2 ^ k), y ≤ 1 := fun y hy => hu y (List.mem_of_mem_take hy)
    have hdrop : ∀ y ∈ u.drop (2 ^ k), y ≤ 1 := fun y hy => hu y (List.mem_of_mem_drop hy)
    rcases hx with hx | hx
    · rw [List.mem_iff_getElem] at hx
      obtain ⟨i, hilen, hival⟩ := hx
      rw [List.getElem_zipWith] at hival
      rw [← hival]
      refine xor_le_one (ih _ htake _ (List.getElem_mem _)) (ih _ hdrop _ (List.getElem_mem _))
    · exact ih _ hdrop x hx

theorem polarButterfly_getD_le_one (n : Nat) (u : List Nat) (hu : ∀ x ∈ u, x ≤ 1) (i : Nat) :
    (polarButterfly n u).getD i 0 ≤ 1 := by
  by_cases hi : i < (polarButterfly n u).length
  · rw [List.getD_eq_getElem _ 0 hi]
    exact polarButterfly_bits n u hu _ (List.getElem_mem _)
  · rw [List.getD_eq_default _ 0 (by omega)]
    omega

theorem polarButterfly_getD_lo (n : Nat) (u : List Nat) (i : Nat) (hi : i < 2 ^ n) :
    (polarButterfly (n + 1) u).getD i 0 =
      (polarButterfly n (u.take (2 ^ n))).getD i 0 ^^^
        (polarButterfly n (u.drop (2 ^ n))).getD i 0 := by
  rw [polarButterfly]
  have hlen : (List.zipWith (fun a b => a ^^^ b) (polarButterfly n (u.take (2 ^ n)))
      (polarButterfly n (u.drop (2 ^ n)))).length = 2 ^ n := by
    rw [List.length_zipWith, polarButterfly_length, polarButterfly_length, min_self]
  rw [List.getD_eq_getElem?_getD, List.getElem?_append_left (by rw [hlen]; omega)]
  rw [List.getElem?_eq_getElem (by rw [hlen]; omega), List.getElem_zipWith]
  rw [Option.getD_some]
  rw [List.getD_eq_getElem _ 0 (by rw [polarButterfly_length]; omega),
    List.getD_eq_getElem _ 0 (by rw [polarButterfly_length]; omega)]

theorem polarButterfly_getD_hi (n : Nat) (u : List Nat) (i : Nat) (h1 : 2 ^ n ≤ i) :
    (polarButterfly (n + 1) u).getD i 0 =
      (polarButterfly n (u.drop (2 ^ n))).getD (i - 2 ^ n) 0 := by
  rw [polarButterfly]
  have hlen : (List.zipWith (fun a b => a ^^^ b) (polarButterfly n (u.take (2 ^ n)))
      (polarButterfly n (u.drop (2 ^ n)))).length = 2 ^ n := by
    rw [List.length_zipWith, polarButterfly_length, polarButterfly_length, min_self]
  rw [List.getD_eq_getElem?_getD, List.getElem?_append_right (by rw [hlen]; omega), hlen,
    ← List.getD_eq_getElem?_getD]

theorem Fm_le_one : ∀ i j, Fm i j ≤ 1 := by
  intro i j
  rcases i with _ | _ | i <;> rcases j with _ | _ | j <;> simp [Fm]

theorem gIter_le_one : ∀ k i j, gIter k i j ≤ 1 := by
  intro k
  induction k with
  | zero => exact Fm_le_one
  | succ m ih =>
    intro i j
    rw [gIter, kronEntry]
    exact le_trans (Nat.mul_le_mul (ih _ _) (Fm_le_one _ _)) (by norm_num)

theorem gIter_topbit : ∀ k i j, i < 2 ^ (k + 2) → j < 2 ^ (k + 2) →
    gIter (k + 1) i j =
      Fm (i / 2 ^ (k + 1)) (j / 2 ^ (k + 1)) * gIter k (i % 2 ^ (k + 1)) (j % 2 ^ (k + 1)) := by
  intro k
  induction k with
  | zero =>
    intro i j hi hj
    rfl
  | succ m ih =>
    intro i j hi hj
    have hp : (2 : Nat) ^ (m + 1 + 2) = 2 ^ (m + 2) * 2 := by
      rw [show m + 1 + 2 = (m + 2) + 1 by omega, pow_succ]
    have h1 : gIter (m + 2) i j = gIter (m + 1) (i / 2) (j / 2) * Fm (i % 2) (j % 2) := rfl
    rw [h1, ih (i / 2) (j / 2) (by omega) (by omega)]
    have e1 : i / 2 / 2 ^ (m + 1) = i / 2 ^ (m + 2) := by
      rw [Nat.div_div_eq_div_mul]
      congr 1
      rw [pow_succ]
      ring
    have e2 : j / 2 / 2 ^ (m + 1) = j / 2 ^ (m + 2) := by
      rw [Nat.div_div_eq_div_mul]
      congr 1
      rw [pow_succ]
      ring
    have e3 : i / 2 % 2 ^ (m + 1) = i % 2 ^ (m + 2) / 2 := by
      rw [Nat.div_mod_eq_mod_mul_div]
      congr 1
      rw [pow_succ]
      ring
    have e4 : j / 2 % 2 ^ (m + 1) = j % 2 ^ (m + 2) / 2 := by
      rw [Nat.div_mod_eq_mod_mul_div]
      congr 1
      rw [pow_succ]
      ring
    have e5 : i % 2 = i % 2 ^ (m + 2) % 2 := by
      rw [Nat.mod_mod_of_dvd]
      exact dvd_pow_self 2 (by omega)
    have e6 : j % 2 = j % 2 ^ (m + 2) % 2 := by
      rw [Nat.mod_mod_of_dvd]
      exact dvd_pow_self 2 (by omega)
    rw [e1, e2, e3, e4, e5, e6]
    have h2 : gIter (m + 1) (i % 2 ^ (m + 2)) (j % 2 ^ (m + 2)) =
        gIter m (i % 2 ^ (m + 2) / 2) (j % 2 ^ (m + 2) / 2) *
          Fm (i % 2 ^ (m + 2) % 2) (j % 2 ^ (m + 2) % 2) := rfl
    rw [h2]
    ring

theorem sum_range_add_nat (f : Nat → Nat) (m : Nat) :
    ∀ k, (Finset.range (m + k)).sum f =
      (Finset.range m).sum f + (Finset.range k).sum (fun i => f (m + i)) := by
  intro k
  induction k with
  | zero => simp
  | succ t ih =>
    rw [show m + (t + 1) = (m + t) + 1 by omega, Finset.sum_range_succ, ih,
      Finset.sum_range_succ]
    omega

theorem bit_add_mod_two_xor (a b : Nat) : (a + b) % 2 = a % 2 ^^^ b % 2 := by
  rcases Nat.mod_two_eq_zero_or_one a with h1 | h1 <;>
    rcases Nat.mod_two_eq_zero_or_one b with h2 | h2 <;>
      rw [Nat.add_mod, h1, h2] <;> rfl

theorem polarEncode_two (a b : Nat) (ha : a ≤ 1) (hb : b ≤ 1) :
    polarEncode [a, b] 2 1 = [a ^^^ b, b] := by
  interval_cases a <;> interval_cases b <;> decide

theorem polarEncode_getD (u : List Nat) (N n j : Nat) (hj : j < N) :
    (polarEncode u N n).getD j 0 =
      ((Finset.range N).sum (fun i => u.getD i 0 * generateG n i j)) % 2 := by
  rw [polarEncode, getD_map_range _ _ _ _ hj]

theorem list_ext_getD (l1 l2 : List Nat) (hlen : l1.length = l2.length)
    (h : ∀ i, i < l1.length → l1.getD i 0 = l2.getD i 0) : l1 = l2 := by
  apply List.ext_getElem hlen
  intro i h1 h2
  have h3 := h i h1
  rwa [List.getD_eq_getElem _ 0 h1, List.getD_eq_getElem _ 0 h2] at h3

theorem polarEncode_eq_butterfly :
    ∀ n (u : List Nat), u.length = 2 ^ n → (∀ x ∈ u, x ≤ 1) →
      polarEncode u (2 ^ n) n = polarButterfly n u := by
  intro n
  induction n with
  | zero =>
    intro u hu hbits
    rw [pow_zero] at hu
    obtain ⟨a, rfl⟩ := List.length_eq_one.mp hu
    have ha : a ≤ 1 := hbits a (by simp)
    interval_cases a <;> decide
  | succ k ih =>
    intro u hu hbits
    cases k with
    | zero =>
      have hu2 : u.length = 2 := by simpa using hu
      obtain ⟨a, b, rfl⟩ := List.length_eq_two.mp hu2
      have ha : a ≤ 1 := hbits a (by simp)
      have hb : b ≤ 1 := hbits b (by simp)
      interval_cases a <;> interval_cases b <;> decide
    | succ m =>
      have hN : (2 : Nat) ^ (m + 2) = 2 ^ (m + 1) + 2 ^ (m + 1) := by
        rw [pow_succ]
        omega
      have hpos : 0 < (2 : Nat) ^ (m + 1) := Nat.pos_pow_of_pos _ (by omega)
      have htlen : (u.take (2 ^ (m + 1))).length = 2 ^ (m + 1) := by
        rw [List.length_take, hu, hN]
        omega
      have hdlen : (u.drop (2 ^ (m + 1))).length = 2 ^ (m + 1) := by
        rw [List.length_drop, hu, hN]
        omega
      have htbits : ∀ x ∈ u.take (2 ^ (m + 1)), x ≤ 1 :=
        fun x hx => hbits x (List.mem_of_mem_take hx)
      have hdbits : ∀ x ∈ u.drop (2 ^ (m + 1)), x ≤ 1 :=
        fun x hx => hbits x (List.mem_of_mem_drop hx)
      have hgen : ∀ (i j : Nat), generateG (m + 1) i j = gIter m i j := by
        intro i j
        rw [generateG, show m + 1 - 1 = m from rfl,
          Nat.mod_eq_of_lt (lt_of_le_of_lt (gIter_le_one m i j) (by omega))]
      have hgen2 : ∀ (i j : Nat), generateG (m + 2) i j = gIter (m + 1) i j := by
        intro i j
        rw [generateG, show m + 2 - 1 = m + 1 from rfl,
          Nat.mod_eq_of_lt (lt_of_le_of_lt (gIter_le_one (m + 1) i j) (by omega))]
      have ihT := ih (u.take (2 ^ (m + 1))) htlen htbits
      have ihD := ih (u.drop (2 ^ (m + 1))) hdlen hdbits
      apply list_ext_getD
      · rw [polarButterfly_length]
        simp [polarEncode]
      · intro j hj0
        have hjN : j < 2 ^ (m + 2) := by simpa [polarEncode] using hj0
        rw [polarEncode_getD u _ _ j hjN]
        rw [Finset.sum_congr rfl (fun i _ => by rw [hgen2 i j]), hN, sum_range_add_nat]
        by_cases hjlo : j < 2 ^ (m + 1)
        · have hA : (Finset.range (2 ^ (m + 1))).sum (fun i => u.getD i 0 * gIter (m + 1) i j)
              = (Finset.range (2 ^ (m + 1))).sum
                  (fun i => (u.take (2 ^ (m + 1))).getD i 0 * generateG (m + 1) i j) := by
            apply Finset.sum_congr rfl
            intro i hi
            rw [Finset.mem_range] at hi
            rw [hgen i j, gIter_topbit m i j (by omega) (by omega), Nat.div_eq_of_lt hi,
              Nat.div_eq_of_lt hjlo, Nat.mod_eq_of_lt hi, Nat.mod_eq_of_lt hjlo,
              getD_take_lt u _ i 0 hi]
            show u.getD i 0 * (1 * gIter m i j) = u.getD i 0 * gIter m i j
            rw [one_mul]
          have hB : (Finset.range (2 ^ (m + 1))).sum
                (fun i => u.getD (2 ^ (m + 1) + i) 0 * gIter (m + 1) (2 ^ (m + 1) + i) j)
              = (Finset.range (2 ^ (m + 1))).sum
                  (fun i => (u.drop (2 ^ (m + 1))).getD i 0 * generateG (m + 1) i j) := by
            apply Finset.sum_congr rfl
            intro i hi
            rw [Finset.mem_range] at hi
            have hdiv : (2 ^ (m + 1) + i) / 2 ^ (m + 1) = 1 := by
              rw [Nat.add_comm, Nat.add_div_right _ hpos, Nat.div_eq_of_lt hi]
            have hmod : (2 ^ (m + 1) + i) % 2 ^ (m + 1) = i := by
              rw [Nat.add_comm, Nat.add_mod_right, Nat.mod_eq_of_lt hi]
            rw [hgen i j, gIter_topbit m _ j (by omega) (by omega), hdiv, hmod,
              Nat.div_eq_of_lt hjlo, Nat.mod_eq_of_lt hjlo, getD_drop u _ i 0]
            show u.getD (2 ^ (m + 1) + i) 0 * (1 * gIter m i j)
              = u.getD (2 ^ (m + 1) + i) 0 * gIter m i j
            rw [one_mul]
          rw [hA, hB, bit_add_mod_two_xor]
          rw [← polarEncode_getD _ (2 ^ (m + 1)) (m + 1) j hjlo]
          rw [← polarEncode_getD _ (2 ^ (m + 1)) (m + 1) j hjlo]
          rw [ihT, ihD, ← polarButterfly_getD_lo (m + 1) u j hjlo]
        · obtain ⟨r, hr, rfl⟩ : ∃ r, r < 2 ^ (m + 1) ∧ j = 2 ^ (m + 1) + r :=
            ⟨j - 2 ^ (m + 1), by omega, by omega⟩
          have hjdiv : (2 ^ (m + 1) + r) / 2 ^ (m + 1) = 1 := by
            rw [Nat.add_comm, Nat.add_div_right _ hpos, Nat.div_eq_of_lt hr]
          have hjmod : (2 ^ (m + 1) + r) % 2 ^ (m + 1) = r := by
            rw [Nat.add_comm, Nat.add_mod_right, Nat.mod_eq_of_lt hr]
          have hA : (Finset.range (2 ^ (m + 1))).sum
                (fun i => u.getD i 0 * gIter (m + 1) i (2 ^ (m + 1) + r)) = 0 := by
            apply Finset.sum_eq_zero
            intro i hi
            rw [Finset.mem_range] at hi
            rw [gIter_topbit m i _ (by omega) (by omega), Nat.div_eq_of_lt hi, hjdiv]
            show u.getD i 0 *
              (Fm 0 1 * gIter m (i % 2 ^ (m + 1)) ((2 ^ (m + 1) + r) % 2 ^ (m + 1))) = 0
            rw [show Fm 0 1 = 0 from rfl, zero_mul, mul_zero]
          have hB : (Finset.range (2 ^ (m + 1))).sum
                (fun i => u.getD (2 ^ (m + 1) + i) 0 * gIter (m + 1) (2 ^ (m + 1) + i)
                  (2 ^ (m + 1) + r))
              = (Finset.range (2 ^ (m + 1))).sum
                  (fun i => (u.drop (2 ^ (m + 1))).getD i 0 * generateG (m + 1) i r) := by
            apply Finset.sum_congr rfl
            intro i hi
            rw [Finset.mem_range] at hi
            have hdiv : (2 ^ (m + 1) + i) / 2 ^ (m + 1) = 1 := by
              rw [Nat.add_comm, Nat.add_div_right _ hpos, Nat.div_eq_of_lt hi]
            have hmod : (2 ^ (m + 1) + i) % 2 ^ (m + 1) = i := by
              rw [Nat.add_comm, Nat.add_mod_right, Nat.mod_eq_of_lt hi]
            rw [hgen i r, gIter_topbit m _ _ (by omega) (by omega), hdiv, hmod, hjdiv, hjmod,
              getD_drop u _ i 0]
            show u.getD (2 ^ (m + 1) + i) 0 * (1 * gIter m i r)
              = u.getD (2 ^ (m + 1) + i) 0 * gIter m i r
            rw [one_mul]
          rw [hA, hB, zero_add]
          rw [← polarEncode_getD _ (2 ^ (m + 1)) (m + 1) r hr]
          rw [ihD, polarButterfly_getD_hi (m + 1) u _ (by omega)]
          rw [show 2 ^ (m + 1) + r - 2 ^ (m + 1) = r by omega]

theorem scF_bits (ca cb : Int) (xa xb : Nat) (hca : 0 < ca) (hcb : 0 < cb)
    (hxa : xa ≤ 1) (hxb : xb ≤ 1) :
    scF (ca * (1 - 2 * (xa : Int))) (cb * (1 - 2 * (xb : Int))) =
      min ca cb * (1 - 2 * ((xa ^^^ xb : Nat) : Int)) := by
  interval_cases xa <;> interval_cases xb <;>
    norm_num [scF, hca.le, hcb.le, hca.not_le, hcb.not_le, abs_of_pos hca, abs_of_pos hcb]

theorem scG_bits (ca cb : Int) (L R : Nat) (hL : L ≤ 1) (hR : R ≤ 1) :
    scG (ca * (1 - 2 * ((L ^^^ R : Nat) : Int))) (cb * (1 - 2 * (R : Int))) L =
      (cb + ca) * (1 - 2 * (R : Int)) := by
  interval_cases L <;> interval_cases R <;>
    rw [scG] <;> push_cast <;> ring

theorem map_range_xor_zipWith (h : Nat) (L R : List Nat) (hL : L.length = h)
    (hR : R.length = h) :
    (List.range h).map (fun i => L.getD i 0 ^^^ R.getD i 0) =
      List.zipWith (fun a b => a ^^^ b) L R := by
  apply list_ext_getD
  · rw [List.length_map, List.length_range, List.length_zipWith, hL, hR, min_self]
  · intro i hi
    rw [List.length_map, List.length_range] at hi
    rw [getD_map_range _ _ _ _ hi]
    rw [List.getD_eq_getElem L 0 (by omega)]
    rw [List.getD_eq_getElem R 0 (by omega)]
    rw [List.getD_eq_getElem _ 0 (by rw [List.length_zipWith, hL, hR, min_self]; omega)]
    rw [List.getElem_zipWith]

theorem scDecodeAux_correct (frozen : Nat → Bool) :
    ∀ n (u : List Nat) (llr : List Int) (offset : Nat),
      u.length = 2 ^ n → (∀ x ∈ u, x ≤ 1) →
      (∀ i, i < 2 ^ n → frozen (offset + i) = true → u.getD i 0 = 0) →
      (∀ i, i < 2 ^ n → ∃ c : Int, 0 < c ∧
        llr.getD i 0 = c * (1 - 2 * ((polarButterfly n u).getD i 0 : Int))) →
      scDecodeAux frozen n llr offset = (u, polarButterfly n u) := by
  intro n
  induction n with
  | zero =>
    intro u llr offset hu hbits hfz hllr
    rw [pow_zero] at hu hfz hllr
    obtain ⟨a, rfl⟩ := List.length_eq_one.mp hu
    have ha : a ≤ 1 := hbits a (by simp)
    obtain ⟨c, hc, hval⟩ := hllr 0 (by omega)
    have hbutter : polarButterfly 0 [a] = [a] := rfl
    rw [hbutter] at hval
    rw [show ([a] : List Nat).getD 0 0 = a from rfl] at hval
    rw [scDecodeAux, hbutter, headD_eq_getD, hval]
    by_cases hf : frozen offset = true
    · have ha0 : a = 0 := hfz 0 (by omega) hf
      rw [if_pos hf, ha0]
    · rw [if_neg hf]
      interval_cases a
      · have he : c * (1 - 2 * ((0 : Nat) : Int)) = c := by push_cast; ring
        rw [he, if_neg (by omega)]
      · have he : c * (1 - 2 * ((1 : Nat) : Int)) = -c := by push_cast; ring
        rw [he, if_pos (by omega)]
  | succ k ih =>
    intro u llr offset hu hbits hfz hllr
    have hpos : 0 < (2 : Nat) ^ k := Nat.pos_pow_of_pos _ (by omega)
    have hN : (2 : Nat) ^ (k + 1) = 2 ^ k + 2 ^ k := by rw [pow_succ]; omega
    have htlen : (u.take (2 ^ k)).length = 2 ^ k := by
      rw [List.length_take, hu, hN]
      omega
    have hdlen : (u.drop (2 ^ k)).length = 2 ^ k := by
      rw [List.length_drop, hu, hN]
      omega
    have htbits : ∀ x ∈ u.take (2 ^ k), x ≤ 1 := fun x hx => hbits x (List.mem_of_mem_take hx)
    have hdbits : ∀ x ∈ u.drop (2 ^ k), x ≤ 1 := fun x hx => hbits x (List.mem_of_mem_drop hx)
    have hLbit : ∀ i, (polarButterfly k (u.take (2 ^ k))).getD i 0 ≤ 1 :=
      polarButterfly_getD_le_one k _ htbits
    have hRbit : ∀ i, (polarButterfly k (u.drop (2 ^ k))).getD i 0 ≤ 1 :=
      polarButterfly_getD_le_one k _ hdbits
    have hfL : ∀ i, i < 2 ^ k → ∃ c : Int, 0 < c ∧
        ((List.range (2 ^ k)).map
          (fun i => scF (llr.getD i 0) (llr.getD (2 ^ k + i) 0))).getD i 0
          = c * (1 - 2 * ((polarButterfly k (u.take (2 ^ k))).getD i 0 : Int)) := by
      intro i hi
      obtain ⟨c1, hc1, hv1⟩ := hllr i (by omega)
      obtain ⟨c2, hc2, hv2⟩ := hllr (2 ^ k + i) (by omega)
      rw [polarButterfly_getD_lo k u i hi] at hv1
      rw [polarButterfly_getD_hi k u (2 ^ k + i) (by omega),
        show 2 ^ k + i - 2 ^ k = i by omega] at hv2
      refine ⟨min c1 c2, lt_min hc1 hc2, ?_⟩
      rw [getD_map_range _ _ _ _ hi, hv1, hv2,
        scF_bits c1 c2 _ _ hc1 hc2 (xor_le_one (hLbit i) (hRbit i)) (hRbit i),
        Nat.xor_cancel_right]
    have hfzT : ∀ i, i < 2 ^ k → frozen (offset + i) = true → (u.take (2 ^ k)).getD i 0 = 0 := by
      intro i hi hf
      rw [getD_take_lt u _ i 0 hi]
      exact hfz i (by omega) hf
    have hupper := ih (u.take (2 ^ k))
      ((List.range (2 ^ k)).map (fun i => scF (llr.getD i 0) (llr.getD (2 ^ k + i) 0)))
      offset htlen htbits hfzT hfL
    have hgL : ∀ i, i < 2 ^ k → ∃ c : Int, 0 < c ∧
        ((List.range (2 ^ k)).map
          (fun i => scG (llr.getD i 0) (llr.getD (2 ^ k + i) 0)
            ((polarButterfly k (u.take (2 ^ k))).getD i 0))).getD i 0
          = c * (1 - 2 * ((polarButterfly k (u.drop (2 ^ k))).getD i 0 : Int)) := by
      intro i hi
      obtain ⟨c1, hc1, hv1⟩ := hllr i (by omega)
      obtain ⟨c2, hc2, hv2⟩ := hllr (2 ^ k + i) (by omega)
      rw [polarButterfly_getD_lo k u i hi] at hv1
      rw [polarButterfly_getD_hi k u (2 ^ k + i) (by omega),
        show 2 ^ k + i - 2 ^ k = i by omega] at hv2
      refine ⟨c2 + c1, by omega, ?_⟩
      rw [getD_map_range _ _ _ _ hi, hv1, hv2,
        scG_bits c1 c2 _ _ (hLbit i) (hRbit i)]
    have hfzD : ∀ i, i < 2 ^ k → frozen (offset + 2 ^ k + i) = true →
        (u.drop (2 ^ k)).getD i 0 = 0 := by
      intro i hi hf
      rw [getD_drop u _ i 0]
      refine hfz (2 ^ k + i) (by omega) ?_
      rwa [← Nat.add_assoc]
    have hlower := ih (u.drop (2 ^ k))
      ((List.range (2 ^ k)).map (fun i => scG (llr.getD i 0) (llr.getD (2 ^ k + i) 0)
        ((polarButterfly k (u.take (2 ^ k))).getD i 0)))
      (offset + 2 ^ k) hdlen hdbits hfzD hgL
    rw [scDecodeAux, hupper]
    dsimp only
    rw [hlower]
    dsimp only
    rw [List.take_append_drop,
      map_range_xor_zipWith (2 ^ k) _ _ (polarButterfly_length k _) (polarButterfly_length k _)]
    rfl

theorem scDecode_roundtrip (n : Nat) (frozen : Nat → Bool) (u : List Nat)
    (hu : u.length = 2 ^ n) (hbits : ∀ x ∈ u, x ≤ 1)
    (hfz : ∀ i, i < 2 ^ n → frozen i = true → u.getD i 0 = 0) :
    scDecode (polarEncode u (2 ^ n) n) frozen n = u := by
  rw [scDecode, polarEncode_eq_butterfly n u hu hbits]
  have hllr : ∀ i, i < 2 ^ n → ∃ c : Int, 0 < c ∧
      ((polarButterfly n u).map (fun bit => if bit = 0 then (2 : Int) else -2)).getD i 0
        = c * (1 - 2 * ((polarButterfly n u).getD i 0 : Int)) := by
    intro i hi
    refine ⟨2, by omega, ?_⟩
    have hlen : i < (polarButterfly n u).length := by
      rw [polarButterfly_length]
      omega
    rw [List.getD_eq_getElem _ 0 (by rw [List.length_map]; omega), List.getElem_map,
      List.getD_eq_getElem _ 0 hlen]
    have hb : (polarButterfly n u)[i] ≤ 1 :=
      polarButterfly_bits n u hbits _ (List.getElem_mem _)
    rcases Nat.le_one_iff_eq_zero_or_eq_one.mp hb with h0 | h1
    · rw [h0]
      norm_num
    · rw [h1]
      norm_num
  have hmain := scDecodeAux_correct frozen n u
    ((polarButterfly n u).map (fun bit => if bit = 0 then (2 : Int) else -2)) 0 hu hbits
    (fun i hi hf => hfz i hi (by rwa [Nat.zero_add] at hf)) hllr
  rw [hmain]

/-- C3: polar zero-error round-trip.  For every block length `N = 2^n`,
every frozen set (hence every `(N,K)` pair and every erasure probability
used to rank the channels - the theorem quantifies over all frozen sets,
subsuming the Bhattacharyya-based choice), and every information word of
`K` bits, running the SC decoder on the uncorrupted codeword
`u * G_N mod 2` and reading the decoded vector at the information
indices in ascending order reproduces the information word. -/
theorem polar_zero_error_roundtrip (n : Nat) (frozen : Nat → Bool) (data : List Nat)
    (hbits : ∀ x ∈ data, x ≤ 1)
    (hlen : data.length = (infoIndices frozen (2 ^ n)).length) :
    (infoIndices frozen (2 ^ n)).map
        (fun i => (scDecode (polarEncode (inputVector data frozen (2 ^ n)) (2 ^ n) n)
          frozen n).getD i 0) = data := by
  have hulen : (inputVector data frozen (2 ^ n)).length = 2 ^ n := by
    simp [inputVector]
  have hubits : ∀ x ∈ inputVector data frozen (2 ^ n), x ≤ 1 := by
    intro x hx
    rw [inputVector, List.mem_map] at hx
    obtain ⟨i, hi, hix⟩ := hx
    by_cases hf : frozen i = true
    · rw [if_pos hf] at hix
      omega
    · rw [if_neg hf] at hix
      rw [← hix]
      by_cases hd : (infoIndices frozen (2 ^ n)).indexOf i < data.length
      · rw [List.getD_eq_getElem data 0 hd]
        exact hbits _ (List.getElem_mem _)
      · rw [List.getD_eq_default data 0 (by omega)]
        omega
  have hufz : ∀ i, i < 2 ^ n → frozen i = true →
      (inputVector data frozen (2 ^ n)).getD i 0 = 0 := by
    intro i hi hf
    rw [inputVector, getD_map_range _ _ _ _ hi, if_pos hf]
  rw [scDecode_roundtrip n frozen _ hulen hubits hufz]
  apply list_ext_getD
  · rw [List.length_map, hlen]
  · intro k hk
    rw [List.length_map] at hk
    rw [List.getD_eq_getElem _ 0 (by rw [List.length_map]; omega), List.getElem_map,
      List.getD_eq_getElem data 0 (by omega)]
    have himem : (infoIndices frozen (2 ^ n))[k] ∈ infoIndices frozen (2 ^ n) :=
      List.getElem_mem _
    have hmf := List.mem_filter.mp himem
    have hiN : (infoIndices frozen (2 ^ n))[k] < 2 ^ n := List.mem_range.mp hmf.1
    have hif : ¬ frozen ((infoIndices frozen (2 ^ n))[k]) = true := by
      simpa using hmf.2
    rw [inputVector, getD_map_range _ _ _ _ hiN, if_neg hif]
    have hnodup : (infoIndices frozen (2 ^ n)).Nodup := (List.nodup_range _).filter _
    rw [List.indexOf_getElem hnodup k (by omega)]
    rw [List.getD_eq_getElem data 0 (by omega)]

/-- Witness for `polar_zero_error_roundtrip`: N = 8, the four lowest
channels frozen, information word `[1,0,1,1]`. -/
theorem polar_zero_error_roundtrip_witness :
    (infoIndices (fun i => decide (i < 4)) (2 ^ 3)).map
        (fun i => (scDecode
          (polarEncode (inputVector [1, 0, 1, 1] (fun i => decide (i < 4)) (2 ^ 3)) (2 ^ 3) 3)
          (fun i => decide (i < 4)) 3).getD i 0) = [1, 0, 1, 1] :=
  polar_zero_error_roundtrip 3 (fun i => decide (i < 4)) [1, 0, 1, 1] (by decide) (by decide)
